import Mathlib

/-!
Verification of the entity-resolution and relationship-graph pipeline
(`scripts/04_entity_resolution.py`, `scripts/05_data_integration.py`).

Strings are modelled as `List Char`; Python string methods (`replace`,
`split`, `join`, `lower`, `strip`) are embedded as executable functions
below.  Missing values (pandas `NaN`) are modelled by `Option`.
-/

namespace CCarbon

abbrev Str := List Char

/-- Python whitespace characters recognised by `str.split()`. -/
def isPySpace (c : Char) : Bool :=
  c = ' ' || c = '\t' || c = '\n' || c = '\r' || c = '\x0b' || c = '\x0c'

/-- Auxiliary scanner for `str.split()`: `acc` holds the current word, reversed. -/
def pySplitAux : Str → Str → List Str
  | [], acc => if acc = [] then [] else [acc.reverse]
  | c :: s, acc =>
    if isPySpace c then
      (if acc = [] then [] else [acc.reverse]) ++ pySplitAux s []
    else
      pySplitAux s (c :: acc)

/-- Python `str.split()` (no argument): split on whitespace runs, no empty words. -/
def pySplit (s : Str) : List Str := pySplitAux s []

/-- Python `' '.join(ws)`. -/
def joinSp : List Str → Str
  | [] => []
  | [w] => w
  | w :: ws => w ++ ' ' :: joinSp ws

/-- `' '.join(s.split())`: collapse consecutive whitespace and trim. -/
def collapseWs (s : Str) : Str := joinSp (pySplit s)

/-- Python `str.lower()` (the data is basic-latin; `Char.toLower` matches). -/
def pyLower (s : Str) : Str := s.map Char.toLower

/-- Fuel-indexed scanner for Python `str.replace(old, new)`:
left-to-right, non-overlapping occurrences.  The fuel makes the
recursion structural; `pyReplace` instantiates it with enough fuel. -/
def replGo (old new : Str) : Nat → Str → Str
  | _, [] => []
  | 0, s => s
  | f + 1, c :: t =>
    if old ≠ [] ∧ old <+: (c :: t) then
      new ++ replGo old new f (t.drop (old.length - 1))
    else
      c :: replGo old new f t

/-- Python `s.replace(old, new)` for non-empty `old`. -/
def pyReplace (old new s : Str) : Str := replGo old new s.length s

/-- The six suffix strings removed by `normalize_name`, in program order. -/
def suffixTokens : List Str :=
  [" ltd".toList, " llc".toList, " inc".toList,
   " solutions".toList, " agro".toList, " capital".toList]

/-- The successive `str.replace(suffix, '')` calls of `normalize_name`. -/
def stripSuffixTokens (s : Str) : Str :=
  suffixTokens.foldl (fun t suf => pyReplace suf [] t) s

/-- Lines 39-44 of `normalize_name`: everything before the final
whitespace collapse. -/
def preCollapse (s : Str) : Str :=
  pyReplace ['-'] [' ']
    (pyReplace [','] [] (pyReplace ['.'] [] (stripSuffixTokens (pyLower s))))

/-- `normalize_name` on a non-null string: lower-case, remove suffix tokens,
delete `.` and `,`, map `-` to space, collapse whitespace. -/
def normalizeStr (s : Str) : Str :=
  collapseWs (preCollapse s)

/-- `normalize_name`, including the `pd.isna` guard: null input gives `""`. -/
def normalizeOpt : Option Str → Str
  | none => []
  | some s => normalizeStr s

/-- Python `s.split(';')`: split on every `;`, keeping empty segments. -/
def pySplitSemi : Str → List Str
  | [] => [[]]
  | c :: s =>
    if c = ';' then [] :: pySplitSemi s
    else
      match pySplitSemi s with
      | w :: ws => (c :: w) :: ws
      | [] => [[c]]

/-- Python `str.strip()`: drop whitespace from both ends. -/
def pyStrip (s : Str) : Str :=
  (((s.dropWhile isPySpace).reverse).dropWhile isPySpace).reverse

/-- `[alt.strip() for alt in str(v).split(';') if alt.strip()]`, guarded by
column availability and `pd.notna` (collapsed into the `Option`). -/
def parseAlts : Option Str → List Str
  | none => []
  | some v => ((pySplitSemi v).map pyStrip).filter (fun a => a ≠ [])

/-- One value of the `entity_map` built by `build_entity_mapping`.
`normalized_variants` is Python's `list(set(...))`; the element set is
what matters, modelled as `dedup` of the generated list. -/
structure Entity where
  canonical_name : Option Str
  alternate_names : List Str
  normalized_variants : List Str
deriving DecidableEq, Repr

/-- The loop body of `build_entity_mapping` for one record. -/
def mkEntity (canonical : Option Str) (altVal : Option Str) : Entity :=
  let alts := parseAlts altVal
  { canonical_name := canonical
    alternate_names := alts
    normalized_variants := (normalizeOpt canonical :: alts.map normalizeStr).dedup }

/-- Python exceptions that the modelled code can raise. -/
inductive PyErr where
  | keyError (col : Str)
  | attributeError
deriving DecidableEq, Repr

/-- One pandas row: column name to cell value (`none` models `NaN`). -/
abbrev Row := List (Str × Option Str)

/-- A pandas dataframe: declared columns and rows. -/
structure PyDF where
  cols : List Str
  rows : List Row

/-- `row[col]` on a pandas row: `KeyError` when the column is absent. -/
def getCell (row : Row) (col : Str) : Except PyErr (Option Str) :=
  match List.lookup col row with
  | some v => Except.ok v
  | none => Except.error (PyErr.keyError col)

/-- Python `dict` key equality on possibly-NaN keys: `NaN != NaN`, so a
null key never matches an existing one. -/
def pyKeyEq : Option Str → Option Str → Bool
  | some a, some b => a == b
  | _, _ => false

/-- `d[k] = v` on a Python dict (insertion order preserved, overwrite in place). -/
def dictInsert {V : Type} (m : List (Option Str × V)) (k : Option Str) (v : V) :
    List (Option Str × V) :=
  if (m.find? (fun p => pyKeyEq p.1 k)).isSome then
    m.map (fun p => if pyKeyEq p.1 k then (p.1, v) else p)
  else
    m ++ [(k, v)]

/-- The alternate-names cell of a row, guarded as in the code:
`alt_names_col and alt_names_col in df.columns and pd.notna(row[...])`. -/
def altValOf (df : PyDF) (altCol : Option Str) (row : Row) : Option Str :=
  match altCol with
  | some ac => if ac ≠ [] ∧ ac ∈ df.cols then (List.lookup ac row).join else none
  | none => none

/-- One iteration of the `build_entity_mapping` loop. -/
def buildStep (df : PyDF) (idCol nameCol : Str) (altCol : Option Str)
    (m : List (Option Str × Entity)) (row : Row) :
    Except PyErr (List (Option Str × Entity)) := do
  let entityId ← getCell row idCol
  let canonical ← getCell row nameCol
  pure (dictInsert m entityId (mkEntity canonical (altValOf df altCol row)))

/-- `build_entity_mapping(df, id_col, name_col, alt_names_col)`.  The code
has no error handling: a missing `id_col`/`name_col` raises `KeyError` at
the first record; a null identifier is inserted like any other key. -/
def build_entity_mapping (df : PyDF) (idCol nameCol : Str) (altCol : Option Str) :
    Except PyErr (List (Option Str × Entity)) :=
  df.rows.foldlM (buildStep df idCol nameCol altCol) []

/-- Point update of a function-backed dict. -/
def updFn {ι : Type} (m : Str → Option ι) (k : Str) (i : ι) : Str → Option ι :=
  fun x => if x = k then some i else m x

/-- The per-entity body of `create_reverse_lookup`: insert the normalized
canonical name unconditionally, then every non-empty normalized variant. -/
def revStep {ι : Type} (m : Str → Option ι) (p : ι × Entity) : Str → Option ι :=
  p.2.normalized_variants.foldl
    (fun m2 v => if v ≠ [] then updFn m2 v p.1 else m2)
    (updFn m (normalizeOpt p.2.canonical_name) p.1)

/-- `create_reverse_lookup(entity_map)`: any name variant to entity id. -/
def create_reverse_lookup {ι : Type} (em : List (ι × Entity)) : Str → Option ι :=
  em.foldl revStep (fun _ => none)

/-- A mention record `{entity_id, entity_name, matched_text}`. -/
structure MentionT (ι : Type) where
  entity_id : ι
  entity_name : Str
  matched_text : Str
deriving DecidableEq, Repr

/-- Python `sub in t` on strings: substring test. -/
def hasInfix : Str → Str → Bool
  | [], sub => sub.isEmpty
  | c :: t, sub => sub.isPrefixOf (c :: t) || hasInfix t sub

/-- The per-entity body of `find_entity_in_text`: canonical name first
(emit and skip alternates on hit), else the first matching alternate.
A null canonical name makes `.lower()` raise `AttributeError`. -/
def mentionsForEntity {ι : Type} (tl : Str) (i : ι) (e : Entity) :
    Except PyErr (List (MentionT ι)) :=
  match e.canonical_name with
  | none => Except.error PyErr.attributeError
  | some cn =>
    if hasInfix tl (pyLower cn) then Except.ok [⟨i, cn, cn⟩]
    else
      match e.alternate_names.find? (fun a => hasInfix tl (pyLower a)) with
      | some a => Except.ok [⟨i, cn, a⟩]
      | none => Except.ok []

/-- One iteration of the `find_entity_in_text` loop. -/
def mentionStep {ι : Type} (tl : Str) (acc : List (MentionT ι)) (p : ι × Entity) :
    Except PyErr (List (MentionT ι)) := do
  let ms ← mentionsForEntity tl p.1 p.2
  pure (acc ++ ms)

/-- `find_entity_in_text(text, entity_map)`: null text gives `[]`. -/
def find_entity_in_text {ι : Type} (text : Option Str) (em : List (ι × Entity)) :
    Except PyErr (List (MentionT ι)) :=
  match text with
  | none => Except.ok []
  | some t => em.foldlM (mentionStep (pyLower t)) []

/-- A row of `potential_duplicates`. -/
structure DupCand (ι : Type) where
  id1 : ι
  entity1 : Option Str
  id2 : ι
  entity2 : Option Str
  similarity : ℚ
  matched_variants : Option (Str × Str)
deriving DecidableEq

/-- The inner max-similarity scan of `find_similar_entities`: running
maximum starting at 0, strict improvement updates the best pair. -/
def maxSim (ratio : Str → Str → ℚ) (e1 e2 : Entity) : ℚ × Option (Str × Str) :=
  e1.normalized_variants.foldl (fun acc n1 =>
    e2.normalized_variants.foldl (fun acc2 n2 =>
      if ratio n1 n2 > acc2.1 then (ratio n1 n2, some (n1, n2)) else acc2) acc)
    (0, none)

/-- All ordered pairs `(entry i, entry j)` with `i < j`, as iterated by
the nested `for` loops of `find_similar_entities`. -/
def entryPairs {α : Type} : List α → List (α × α)
  | [] => []
  | p :: ps => ps.map (fun q => (p, q)) ++ entryPairs ps

/-- `find_similar_entities(entity_map, threshold)`; `ratio` abstracts the
external `rapidfuzz.fuzz.ratio` scoring function. -/
def find_similar_entities {ι : Type} (ratio : Str → Str → ℚ)
    (em : List (ι × Entity)) (threshold : ℚ) : List (DupCand ι) :=
  (entryPairs em).filterMap (fun pq =>
    if (maxSim ratio pq.1.2 pq.2.2).1 ≥ threshold then
      some ⟨pq.1.1, pq.1.2.canonical_name, pq.2.1, pq.2.2.canonical_name,
            (maxSim ratio pq.1.2 pq.2.2).1, (maxSim ratio pq.1.2 pq.2.2).2⟩
    else none)

/-- A mention as read back from the mention JSON in `05_data_integration.py`. -/
structure MentionRec where
  entity_id : Option Str
  entity_name : Option Str
deriving DecidableEq, Repr

/-- Per-document mention sets (`email_entity_mentions` / `transcript_entity_mentions`). -/
structure DocMentions where
  doc_id : Option Str
  developers : List MentionRec
  investors : List MentionRec
deriving DecidableEq, Repr

/-- A row of the relationships table. -/
structure Edge where
  entity_1 : Option Str
  entity_1_name : Option Str
  entity_2 : Option Str
  entity_2_name : Option Str
  relationship_type : Str
  source_type : Str
  source_id : Option Str
deriving DecidableEq, Repr

/-- `mentioned_together` edges for one source kind: one edge per
(developer, investor) pair of each document, in input order. -/
def mentionedTogetherEdges (srcType : Str) (ms : List DocMentions) : List Edge :=
  ms.flatMap (fun m =>
    m.developers.flatMap (fun d =>
      m.investors.map (fun inv =>
        ⟨d.entity_id, d.entity_name, inv.entity_id, inv.entity_name,
         "mentioned_together".toList, srcType, m.doc_id⟩)))

/-- The investor columns used by the prior-interaction scan. -/
structure InvestorRow where
  investor_id : Option Str
  fund_name : Option Str
  prior_interactions : Option Str
deriving DecidableEq, Repr

/-- The developer columns used to resolve a project id. -/
structure DeveloperRow where
  developer_id : Option Str
  developer_name : Option Str
  project_id : Option Str
deriving DecidableEq, Repr

/-- `re.findall(r'P\d{3}', s)`: left-to-right non-overlapping matches of
`P` followed by three digits. -/
def findPIds : Str → List Str
  | 'P' :: a :: b :: d :: t =>
    if a.isDigit && b.isDigit && d.isDigit then
      ('P' :: a :: b :: [d]) :: findPIds t
    else
      findPIds (a :: b :: d :: t)
  | _ :: t => findPIds t
  | [] => []

/-- `prior_interaction` edges from investor notes: scan the text for
project ids, resolve each via the first matching developer row, skip
unresolved ids. -/
def notesEdges (devs : List DeveloperRow) (invs : List InvestorRow) : List Edge :=
  invs.flatMap (fun r =>
    match r.prior_interactions with
    | none => []
    | some txt =>
      (findPIds txt).filterMap (fun pid =>
        match devs.find? (fun d => d.project_id == some pid) with
        | some d =>
          some ⟨r.investor_id, r.fund_name, d.developer_id, d.developer_name,
                "prior_interaction".toList, "investor_notes".toList, r.investor_id⟩
        | none => none))

/-- The dedup key of `drop_duplicates(subset=['entity_1','entity_2','relationship_type'])`. -/
def edgeKey (e : Edge) : Option Str × Option Str × Str :=
  (e.entity_1, e.entity_2, e.relationship_type)

/-- Keep-first dedup by `edgeKey`, tracking seen keys. -/
def dedupGo (seen : List (Option Str × Option Str × Str)) : List Edge → List Edge
  | [] => []
  | e :: es =>
    if edgeKey e ∈ seen then dedupGo seen es
    else e :: dedupGo (edgeKey e :: seen) es

/-- `df.drop_duplicates(subset=[...])`: first occurrence of each key wins. -/
def dedupEdges (l : List Edge) : List Edge := dedupGo [] l

/-- `create_relationships_table`: email edges, then transcript edges, then
investor-note edges, deduplicated by `(entity_1, entity_2, relationship_type)`. -/
def create_relationships_table (emailMs transcriptMs : List DocMentions)
    (devs : List DeveloperRow) (invs : List InvestorRow) : List Edge :=
  dedupEdges
    (mentionedTogetherEdges "email".toList emailMs ++
     mentionedTogetherEdges "transcript".toList transcriptMs ++
     notesEdges devs invs)

/-! ## Basic properties of the embedded string operations -/

theorem replGo_nil (old new : Str) (f : Nat) : replGo old new f [] = [] := by
  cases f <;> rfl

theorem replGo_congr (old new : Str) :
    ∀ f g : Nat, ∀ s : Str, s.length ≤ f → s.length ≤ g →
      replGo old new f s = replGo old new g s := by
  intro f
  induction f with
  | zero =>
    intro g s hf _
    have hs : s = [] := List.eq_nil_of_length_eq_zero (Nat.le_zero.mp hf)
    subst hs
    simp [replGo_nil]
  | succ f ih =>
    intro g s hf hg
    cases s with
    | nil => simp [replGo_nil]
    | cons c t =>
      cases g with
      | zero => simp at hg
      | succ g' =>
        have ht : t.length ≤ f := by simpa using hf
        have ht' : t.length ≤ g' := by simpa using hg
        by_cases h : old ≠ [] ∧ old <+: (c :: t)
        · have hd : (t.drop (old.length - 1)).length ≤ t.length := by
            simp [List.length_drop]
          simp only [replGo, if_pos h]
          exact congrArg (new ++ ·)
            (ih g' _ (le_trans hd ht) (le_trans hd ht'))
        · simp only [replGo, if_neg h]
          exact congrArg (c :: ·) (ih g' t ht ht')

theorem pyReplace_nil (old new : Str) : pyReplace old new [] = [] := rfl

theorem pyReplace_cons_pos (old new : Str) (c : Char) (t : Str)
    (h1 : old ≠ []) (h2 : old <+: (c :: t)) :
    pyReplace old new (c :: t) = new ++ pyReplace old new (t.drop (old.length - 1)) := by
  show replGo old new (t.length + 1) (c :: t) = _
  simp only [replGo, if_pos (And.intro h1 h2)]
  exact congrArg (new ++ ·)
    (replGo_congr old new t.length _ _ (by simp [List.length_drop]) le_rfl)

theorem pyReplace_cons_neg (old new : Str) (c : Char) (t : Str)
    (h : ¬(old ≠ [] ∧ old <+: (c :: t))) :
    pyReplace old new (c :: t) = c :: pyReplace old new t := by
  show replGo old new (t.length + 1) (c :: t) = _
  simp only [replGo, if_neg h]
  exact congrArg (c :: ·) (replGo_congr old new t.length t.length t le_rfl le_rfl)

/-- `str.replace` is the identity when the pattern does not occur. -/
theorem pyReplace_eq_self (old new s : Str) (h : ¬ old <:+: s) :
    pyReplace old new s = s := by
  induction s with
  | nil => rfl
  | cons c t ih =>
    rw [pyReplace_cons_neg old new c t (fun hc => h hc.2.isInfix)]
    rw [ih (fun hi => h (List.infix_cons hi))]

/-- Replacing one character by nothing is `filter`. -/
theorem pyReplace_single_del (c : Char) (s : Str) :
    pyReplace [c] [] s = s.filter (fun x => x ≠ c) := by
  induction s with
  | nil => rfl
  | cons d t ih =>
    by_cases h : d = c
    · subst h
      rw [pyReplace_cons_pos [d] [] d t (by simp) ⟨t, rfl⟩]
      simpa using ih
    · rw [pyReplace_cons_neg [c] [] d t]
      · simp only [List.filter_cons]
        rw [ih]
        simp [h]
      · rintro ⟨-, hp⟩
        rw [List.cons_prefix_cons] at hp
        exact h hp.1.symm

/-- Replacing one character by another single character is `map`. -/
theorem pyReplace_single_map (c d : Char) (s : Str) :
    pyReplace [c] [d] s = s.map (fun x => if x = c then d else x) := by
  induction s with
  | nil => rfl
  | cons a t ih =>
    by_cases h : a = c
    · subst h
      rw [pyReplace_cons_pos [a] [d] a t (by simp) ⟨t, rfl⟩]
      simpa using ih
    · rw [pyReplace_cons_neg [c] [d] a t]
      · simp only [List.map_cons]
        rw [ih]
        simp [h]
      · rintro ⟨-, hp⟩
        rw [List.cons_prefix_cons] at hp
        exact h hp.1.symm

/-- Characters of a replacement result come from the input or from `new`. -/
theorem mem_replGo (old new : Str) :
    ∀ (f : Nat) (s : Str) (x : Char), x ∈ replGo old new f s → x ∈ s ∨ x ∈ new := by
  intro f
  induction f with
  | zero =>
    intro s x hx
    cases s with
    | nil => simp [replGo_nil] at hx
    | cons c t => exact Or.inl hx
  | succ f ih =>
    intro s x hx
    cases s with
    | nil => simp [replGo_nil] at hx
    | cons c t =>
      by_cases h : old ≠ [] ∧ old <+: (c :: t)
      · simp only [replGo, if_pos h, List.mem_append] at hx
        rcases hx with hx | hx
        · exact Or.inr hx
        · rcases ih _ x hx with hx' | hx'
          · exact Or.inl (List.mem_cons_of_mem c (List.drop_subset _ t hx'))
          · exact Or.inr hx'
      · simp only [replGo, if_neg h, List.mem_cons] at hx
        rcases hx with hx | hx
        · exact Or.inl (hx ▸ List.mem_cons_self c t)
        · rcases ih t x hx with hx' | hx'
          · exact Or.inl (List.mem_cons_of_mem c hx')
          · exact Or.inr hx'

theorem mem_pyReplace (old new s : Str) (x : Char) :
    x ∈ pyReplace old new s → x ∈ s ∨ x ∈ new :=
  mem_replGo old new s.length s x

/-! ## `Char.toLower` is idempotent -/

theorem char_toLower_fix (c : Char) (h : ¬(65 ≤ c.toNat ∧ c.toNat ≤ 90)) :
    c.toLower = c := by
  unfold Char.toLower
  rw [if_neg]
  intro hc
  exact h ⟨hc.1, hc.2⟩

theorem char_toNat_toLower (c : Char) (h : 65 ≤ c.toNat ∧ c.toNat ≤ 90) :
    c.toLower.toNat = c.toNat + 32 := by
  unfold Char.toLower
  rw [if_pos ⟨h.1, h.2⟩]
  have hv : (c.toNat + 32).isValidChar := Or.inl (by omega)
  rw [Char.ofNat, dif_pos hv]
  simp [Char.ofNatAux, Char.toNat, UInt32.toNat, BitVec.toNat_ofNatLt]

theorem char_toLower_idem (c : Char) : c.toLower.toLower = c.toLower := by
  by_cases h : 65 ≤ c.toNat ∧ c.toNat ≤ 90
  · apply char_toLower_fix
    rw [char_toNat_toLower c h]
    omega
  · rw [char_toLower_fix c h]
    exact char_toLower_fix c h

/-! ## `split` / `join` lemmas -/

/-- Words produced by the splitter are non-empty and whitespace-free. -/
theorem pySplitAux_words (s : Str) :
    ∀ acc, (∀ c ∈ acc, isPySpace c = false) →
      ∀ w ∈ pySplitAux s acc, w ≠ [] ∧ ∀ c ∈ w, isPySpace c = false := by
  induction s with
  | nil =>
    intro acc hacc w hw
    by_cases h : acc = []
    · subst h
      simp [pySplitAux] at hw
    · simp only [pySplitAux, if_neg h, List.mem_singleton] at hw
      subst hw
      refine ⟨by simpa using h, fun c hc => hacc c (by simpa using hc)⟩
  | cons c t ih =>
    intro acc hacc w hw
    by_cases hsp : isPySpace c = true
    · simp only [pySplitAux, hsp, if_true, List.mem_append] at hw
      rcases hw with hw | hw
      · by_cases h : acc = []
        · subst h; simp at hw
        · simp only [if_neg h, List.mem_singleton] at hw
          subst hw
          refine ⟨by simpa using h, fun d hd => hacc d (by simpa using hd)⟩
      · exact ih [] (by simp) w hw
    · simp only [pySplitAux, hsp, if_false, Bool.false_eq_true] at hw
      refine ih (c :: acc) ?_ w hw
      intro d hd
      rcases List.mem_cons.mp hd with hd | hd
      · subst hd; simpa using hsp
      · exact hacc d hd

/-- Scanning a whitespace-free chunk just accumulates it. -/
theorem pySplitAux_append (w : Str) :
    ∀ (s acc : Str), (∀ c ∈ w, isPySpace c = false) →
      pySplitAux (w ++ s) acc = pySplitAux s (w.reverse ++ acc) := by
  induction w with
  | nil => intro s acc _; simp
  | cons c w' ih =>
    intro s acc h
    have hc : isPySpace c = false := h c (List.mem_cons_self c w')
    simp only [List.cons_append, pySplitAux, hc, if_false, Bool.false_eq_true,
      List.append_eq]
    rw [ih s (c :: acc) (fun d hd => h d (List.mem_cons_of_mem c hd))]
    simp

/-- Splitting a space-joined list of non-empty whitespace-free words
recovers the words. -/
theorem pySplit_joinSp :
    ∀ ws : List Str, (∀ w ∈ ws, w ≠ [] ∧ ∀ c ∈ w, isPySpace c = false) →
      pySplit (joinSp ws) = ws := by
  intro ws
  induction ws with
  | nil => intro _; rfl
  | cons w ws' ih =>
    intro h
    have hw := h w (List.mem_cons_self w ws')
    cases ws' with
    | nil =>
      show pySplitAux (joinSp [w]) [] = [w]
      calc pySplitAux (joinSp [w]) [] = pySplitAux (w ++ []) [] := by
            rw [List.append_nil]; rfl
        _ = pySplitAux [] (w.reverse ++ []) := pySplitAux_append w [] [] hw.2
        _ = [w] := by
            have : w.reverse ++ [] ≠ [] := by simp [hw.1]
            simp only [pySplitAux, if_neg this]
            simp
    | cons w2 ws2 =>
      have hrest : ∀ v ∈ w2 :: ws2, v ≠ [] ∧ ∀ c ∈ v, isPySpace c = false :=
        fun v hv => h v (List.mem_cons_of_mem w hv)
      show pySplitAux (joinSp (w :: w2 :: ws2)) [] = _
      rw [show joinSp (w :: w2 :: ws2) = w ++ ' ' :: joinSp (w2 :: ws2) from rfl]
      rw [pySplitAux_append w _ [] hw.2]
      have hsp : isPySpace ' ' = true := by decide
      have hne : w.reverse ++ [] ≠ [] := by simp [hw.1]
      simp only [pySplitAux, hsp, if_true, if_neg hne]
      rw [show pySplitAux (joinSp (w2 :: ws2)) [] = pySplit (joinSp (w2 :: ws2)) from rfl]
      rw [ih hrest]
      simp

/-- Collapsing whitespace is idempotent. -/
theorem collapseWs_idem (s : Str) : collapseWs (collapseWs s) = collapseWs s := by
  show joinSp (pySplit (joinSp (pySplit s))) = joinSp (pySplit s)
  rw [pySplit_joinSp (pySplit s) (pySplitAux_words s [] (by simp))]

theorem mem_joinSp :
    ∀ (ws : List Str) (x : Char), x ∈ joinSp ws → x = ' ' ∨ ∃ w ∈ ws, x ∈ w := by
  intro ws
  induction ws with
  | nil => intro x hx; simp [joinSp] at hx
  | cons w ws' ih =>
    intro x hx
    cases ws' with
    | nil => exact Or.inr ⟨w, List.mem_cons_self w [], hx⟩
    | cons w2 ws2 =>
      rw [show joinSp (w :: w2 :: ws2) = w ++ ' ' :: joinSp (w2 :: ws2) from rfl] at hx
      rcases List.mem_append.mp hx with hx | hx
      · exact Or.inr ⟨w, List.mem_cons_self w _, hx⟩
      · rcases List.mem_cons.mp hx with hx | hx
        · exact Or.inl hx
        · rcases ih x hx with hx' | ⟨v, hv, hxv⟩
          · exact Or.inl hx'
          · exact Or.inr ⟨v, List.mem_cons_of_mem w hv, hxv⟩

theorem mem_pySplitAux (s : Str) :
    ∀ (acc w : Str) (x : Char), w ∈ pySplitAux s acc → x ∈ w → x ∈ s ∨ x ∈ acc := by
  induction s with
  | nil =>
    intro acc w x hw hx
    by_cases h : acc = []
    · subst h; simp [pySplitAux] at hw
    · simp only [pySplitAux, if_neg h, List.mem_singleton] at hw
      subst hw
      exact Or.inr (by simpa using hx)
  | cons c t ih =>
    intro acc w x hw hx
    by_cases hsp : isPySpace c = true
    · simp only [pySplitAux, hsp, if_true, List.mem_append] at hw
      rcases hw with hw | hw
      · by_cases h : acc = []
        · subst h; simp at hw
        · simp only [if_neg h, List.mem_singleton] at hw
          subst hw
          exact Or.inr (by simpa using hx)
      · rcases ih [] w x hw hx with hx' | hx'
        · exact Or.inl (List.mem_cons_of_mem c hx')
        · simp at hx'
    · simp only [pySplitAux, hsp, if_false, Bool.false_eq_true] at hw
      rcases ih (c :: acc) w x hw hx with hx' | hx'
      · exact Or.inl (List.mem_cons_of_mem c hx')
      · rcases List.mem_cons.mp hx' with hx'' | hx''
        · exact Or.inl (hx'' ▸ List.mem_cons_self c t)
        · exact Or.inr hx''

theorem mem_collapseWs (s : Str) (x : Char) :
    x ∈ collapseWs s → x = ' ' ∨ x ∈ s := by
  intro hx
  rcases mem_joinSp (pySplit s) x hx with hx' | ⟨w, hw, hxw⟩
  · exact Or.inl hx'
  · rcases mem_pySplitAux s [] w x hw hxw with hx' | hx'
    · exact Or.inr hx'
    · simp at hx'

/-! ## Stage characterization of `normalize_name` -/

/-- Deletion of one character, as the amended spec words it. -/
def delChar (c : Char) (s : Str) : Str := s.filter (fun x => x ≠ c)

/-- Replacement of one character by another, as the amended spec words it. -/
def mapChar (c d : Char) (s : Str) : Str := s.map (fun x => if x = c then d else x)

theorem preCollapse_eq_stages (s : Str) :
    preCollapse s =
      mapChar '-' ' ' (delChar ',' (delChar '.' (stripSuffixTokens (pyLower s)))) := by
  unfold preCollapse delChar mapChar
  rw [pyReplace_single_del, pyReplace_single_del, pyReplace_single_map]

theorem stripSuffixTokens_unfold (u : Str) :
    stripSuffixTokens u =
      pyReplace " capital".toList [] (pyReplace " agro".toList []
        (pyReplace " solutions".toList [] (pyReplace " inc".toList []
          (pyReplace " llc".toList [] (pyReplace " ltd".toList [] u))))) := rfl

theorem mem_stripSuffixTokens (u : Str) (x : Char) :
    x ∈ stripSuffixTokens u → x ∈ u := by
  intro hx
  rw [stripSuffixTokens_unfold] at hx
  replace hx := (mem_pyReplace _ _ _ _ hx).resolve_right (by simp)
  replace hx := (mem_pyReplace _ _ _ _ hx).resolve_right (by simp)
  replace hx := (mem_pyReplace _ _ _ _ hx).resolve_right (by simp)
  replace hx := (mem_pyReplace _ _ _ _ hx).resolve_right (by simp)
  replace hx := (mem_pyReplace _ _ _ _ hx).resolve_right (by simp)
  exact (mem_pyReplace _ _ _ _ hx).resolve_right (by simp)

theorem normalizeStr_not_mem_dot (s : Str) : '.' ∉ normalizeStr s := by
  intro h
  simp only [normalizeStr, preCollapse_eq_stages] at h
  rcases mem_collapseWs _ _ h with h' | h'
  · exact absurd h' (by decide)
  · rcases List.mem_map.mp h' with ⟨x, hx, hfx⟩
    by_cases hd : x = '-'
    · rw [if_pos hd] at hfx; exact absurd hfx (by decide)
    · rw [if_neg hd] at hfx
      subst hfx
      exact absurd (List.of_mem_filter (List.mem_of_mem_filter hx)) (by decide)

theorem normalizeStr_not_mem_comma (s : Str) : ',' ∉ normalizeStr s := by
  intro h
  simp only [normalizeStr, preCollapse_eq_stages] at h
  rcases mem_collapseWs _ _ h with h' | h'
  · exact absurd h' (by decide)
  · rcases List.mem_map.mp h' with ⟨x, hx, hfx⟩
    by_cases hd : x = '-'
    · rw [if_pos hd] at hfx; exact absurd hfx (by decide)
    · rw [if_neg hd] at hfx
      subst hfx
      exact absurd (List.of_mem_filter hx) (by decide)

theorem normalizeStr_not_mem_hyphen (s : Str) : '-' ∉ normalizeStr s := by
  intro h
  simp only [normalizeStr, preCollapse_eq_stages] at h
  rcases mem_collapseWs _ _ h with h' | h'
  · exact absurd h' (by decide)
  · rcases List.mem_map.mp h' with ⟨x, hx, hfx⟩
    by_cases hd : x = '-'
    · rw [if_pos hd] at hfx; exact absurd hfx (by decide)
    · rw [if_neg hd] at hfx
      exact hd hfx

/-- Every character of a normalized name is fixed by `Char.toLower`. -/
theorem normalizeStr_lowered (s : Str) :
    ∀ c ∈ normalizeStr s, c.toLower = c := by
  intro c hc
  simp only [normalizeStr, preCollapse_eq_stages] at hc
  rcases mem_collapseWs _ _ hc with h' | h'
  · subst h'; decide
  · rcases List.mem_map.mp h' with ⟨x, hx, hfx⟩
    by_cases hd : x = '-'
    · rw [if_pos hd] at hfx; subst hfx; decide
    · rw [if_neg hd] at hfx
      subst hfx
      have hx' := mem_stripSuffixTokens _ _
        (List.mem_of_mem_filter (List.mem_of_mem_filter hx))
      rcases List.mem_map.mp hx' with ⟨d, _, hdx⟩
      subst hdx
      exact char_toLower_idem d

theorem pyLower_eq_self (u : Str) (h : ∀ c ∈ u, c.toLower = c) :
    pyLower u = u := by
  induction u with
  | nil => rfl
  | cons c t ih =>
    show c.toLower :: pyLower t = c :: t
    rw [h c (List.mem_cons_self c t), ih (fun d hd => h d (List.mem_cons_of_mem c hd))]

theorem singleton_infix_iff (c : Char) (t : Str) : [c] <:+: t ↔ c ∈ t := by
  constructor
  · intro h
    exact List.singleton_sublist.mp h.sublist
  · intro h
    rcases List.append_of_mem h with ⟨pre, post, rfl⟩
    exact ⟨pre, post, by simp⟩

theorem stripSuffixTokens_eq_self (u : Str)
    (h : ∀ suf ∈ suffixTokens, ¬ suf <:+: u) : stripSuffixTokens u = u := by
  have h1 := h " ltd".toList (by simp [suffixTokens])
  have h2 := h " llc".toList (by simp [suffixTokens])
  have h3 := h " inc".toList (by simp [suffixTokens])
  have h4 := h " solutions".toList (by simp [suffixTokens])
  have h5 := h " agro".toList (by simp [suffixTokens])
  have h6 := h " capital".toList (by simp [suffixTokens])
  rw [stripSuffixTokens_unfold]
  rw [pyReplace_eq_self _ _ u h1, pyReplace_eq_self _ _ u h2,
    pyReplace_eq_self _ _ u h3, pyReplace_eq_self _ _ u h4,
    pyReplace_eq_self _ _ u h5, pyReplace_eq_self _ _ u h6]

theorem collapseWs_normalizeStr (s : Str) :
    collapseWs (normalizeStr s) = normalizeStr s :=
  collapseWs_idem (preCollapse s)

/-! ## The spec's version of the normalizer (§4.1), for comparison -/

/-- The suffix list in longest-match-first order, as §4.1 prescribes. -/
def suffixTokensLongestFirst : List Str :=
  [" solutions".toList, " capital".toList, " agro".toList,
   " ltd".toList, " llc".toList, " inc".toList]

/-- Strip one organizational suffix at the end of the name, longest
match first, as §4.1 words it. -/
def specStripSuffixEnd (s : Str) : Str :=
  match suffixTokensLongestFirst.find? (fun suf => suf.isSuffixOf s) with
  | some suf => s.take (s.length - suf.length)
  | none => s

/-- The normalizer exactly as §4.1 words it: lower-case, strip a suffix
at the end (longest match first), replace each of `.`, `,`, `-` with a
space, collapse consecutive whitespace, trim. -/
def normalize_spec (s : Str) : Str :=
  collapseWs (pyReplace ['-'] [' '] (pyReplace [','] [' ']
    (pyReplace ['.'] [' '] (specStripSuffixEnd (pyLower s)))))

/-! ## Claims C1 and C2 -/

/-- **C1** (counterexample): the normalizer is not idempotent.  On
`"a-ltd"` the hyphen becomes a space only after suffix stripping, so the
first pass yields `"a ltd"` and the second strips the now-exposed
`" ltd"`, yielding `"a"`. -/
theorem c1_counterexample_not_idempotent :
    normalizeStr (normalizeStr ("a-ltd".toList)) ≠ normalizeStr ("a-ltd".toList) := by
  decide

/-- **C1** (amended): the normalizer is idempotent on every input whose
normalized form contains no occurrence of any of the six suffix tokens
`" ltd"`, `" llc"`, `" inc"`, `" solutions"`, `" agro"`, `" capital"`. -/
theorem c1_normalize_idempotent_of_no_suffix_token (s : Str)
    (h : ∀ suf ∈ suffixTokens, ¬ suf <:+: normalizeStr s) :
    normalizeStr (normalizeStr s) = normalizeStr s := by
  have hlow : pyLower (normalizeStr s) = normalizeStr s :=
    pyLower_eq_self _ (normalizeStr_lowered s)
  have hstrip : stripSuffixTokens (normalizeStr s) = normalizeStr s :=
    stripSuffixTokens_eq_self _ h
  have hdot : pyReplace ['.'] [] (normalizeStr s) = normalizeStr s :=
    pyReplace_eq_self _ _ _
      (fun hi => normalizeStr_not_mem_dot s ((singleton_infix_iff _ _).mp hi))
  have hcomma : pyReplace [','] [] (normalizeStr s) = normalizeStr s :=
    pyReplace_eq_self _ _ _
      (fun hi => normalizeStr_not_mem_comma s ((singleton_infix_iff _ _).mp hi))
  have hhyph : pyReplace ['-'] [' '] (normalizeStr s) = normalizeStr s :=
    pyReplace_eq_self _ _ _
      (fun hi => normalizeStr_not_mem_hyphen s ((singleton_infix_iff _ _).mp hi))
  have hpre : preCollapse (normalizeStr s) = normalizeStr s := by
    unfold preCollapse
    rw [hlow, hstrip, hdot, hcomma, hhyph]
  show collapseWs (preCollapse (normalizeStr s)) = normalizeStr s
  rw [hpre]
  exact collapseWs_normalizeStr s

/-- **C1** witness: a concrete suffix-token-free input on which the
amended idempotence theorem applies. -/
theorem c1_witness :
    (∀ suf ∈ suffixTokens, ¬ suf <:+: normalizeStr ("Verde Nova Agro".toList)) ∧
      normalizeStr (normalizeStr ("Verde Nova Agro".toList)) =
        normalizeStr ("Verde Nova Agro".toList) :=
  ⟨by decide, c1_normalize_idempotent_of_no_suffix_token _ (by decide)⟩

/-- **C2** (counterexample): the code does not apply the spec's step list.
On `"a.b"` the code deletes the period (giving `"ab"`), while the spec's
period-to-space replacement gives `"a b"`. -/
theorem c2_counterexample_stages :
    normalizeStr ("a.b".toList) ≠ normalize_spec ("a.b".toList) := by
  decide

/-- **C2** (amended): for every input string, normalize applies exactly
these steps in order: lower-case; remove every occurrence of the six
organizational suffix tokens anywhere in the string, scanning in the
fixed order ltd, llc, inc, solutions, agro, capital; delete each period
and comma; replace each hyphen with a space; collapse consecutive
whitespace and trim. -/
theorem c2_normalize_stage_list (s : Str) :
    normalizeStr s =
      collapseWs (mapChar '-' ' '
        (delChar ',' (delChar '.' (stripSuffixTokens (pyLower s))))) := by
  simp only [normalizeStr, preCollapse_eq_stages]

/-! ## Claims C3 and C8: the entity map builder -/

/-- The variant set as C3 describes it: normalized forms of the canonical
name and alternates, with empty strings excluded. -/
def c3ClaimedVariants (canonical altVal : Option Str) : List Str :=
  ((normalizeOpt canonical :: (parseAlts altVal).map normalizeStr).filter
    (fun v => v ≠ [])).dedup

theorem mem_dictInsert {V : Type} (m : List (Option Str × V)) (k : Option Str)
    (v : V) (p : Option Str × V) :
    p ∈ dictInsert m k v → p ∈ m ∨ p.2 = v := by
  intro hp
  unfold dictInsert at hp
  split at hp
  · rcases List.mem_map.mp hp with ⟨q, hq, hqe⟩
    by_cases h2 : pyKeyEq q.1 k = true
    · rw [if_pos h2] at hqe
      right
      rw [← hqe]
    · rw [if_neg h2] at hqe
      left
      exact hqe ▸ hq
  · rcases List.mem_append.mp hp with hp | hp
    · exact Or.inl hp
    · right
      rw [List.mem_singleton.mp hp]

theorem buildStep_ok {df : PyDF} {idCol nameCol : Str} {altCol : Option Str}
    {m m' : List (Option Str × Entity)} {row : Row}
    (h : buildStep df idCol nameCol altCol m row = Except.ok m') :
    ∃ i cv, getCell row idCol = Except.ok i ∧ getCell row nameCol = Except.ok cv ∧
      m' = dictInsert m i (mkEntity cv (altValOf df altCol row)) := by
  unfold buildStep at h
  cases hid : getCell row idCol with
  | error e => rw [hid] at h; exact absurd h (by simp [Bind.bind, Except.bind])
  | ok i =>
    rw [hid] at h
    cases hcv : getCell row nameCol with
    | error e => rw [hcv] at h; exact absurd h (by simp [Bind.bind, Except.bind])
    | ok cv =>
      rw [hcv] at h
      simp only [Bind.bind, Except.bind, pure, Except.pure, Except.ok.injEq] at h
      exact ⟨i, cv, rfl, rfl, h.symm⟩

theorem foldlM_buildStep_shape (df : PyDF) (idCol nameCol : Str) (altCol : Option Str) :
    ∀ (rows : List Row) (m0 m : List (Option Str × Entity)),
      List.foldlM (buildStep df idCol nameCol altCol) m0 rows = Except.ok m →
      (∀ p ∈ m0, ∃ nv av, p.2 = mkEntity nv av) →
      ∀ p ∈ m, ∃ nv av, p.2 = mkEntity nv av := by
  intro rows
  induction rows with
  | nil =>
    intro m0 m h h0 p hp
    rw [List.foldlM_nil] at h
    injection h with h
    subst h
    exact h0 p hp
  | cons row rest ih =>
    intro m0 m h h0 p hp
    rw [List.foldlM_cons] at h
    cases hstep : buildStep df idCol nameCol altCol m0 row with
    | error e => rw [hstep] at h; exact absurd h (by simp [Bind.bind, Except.bind])
    | ok m1 =>
      rw [hstep] at h
      replace h : List.foldlM (buildStep df idCol nameCol altCol) m1 rest = Except.ok m := by
        simpa [Bind.bind, Except.bind] using h
      refine ih m1 m h ?_ p hp
      intro q hq
      rcases buildStep_ok hstep with ⟨i, cv, -, -, rfl⟩
      rcases mem_dictInsert _ _ _ q hq with hq' | hq'
      · exact h0 q hq'
      · exact ⟨cv, altValOf df altCol row, hq'⟩

/-- **C3** (counterexample): the builder does not exclude empty strings
from `normalized_variants`.  A record whose name is `"-"` normalizes to
`""`, which the code keeps, while the claimed variant set (empty strings
excluded) is empty — also contradicting the claimed non-emptiness. -/
theorem c3_counterexample_empty_string_kept :
    [] ∈ (mkEntity (some ("-".toList)) none).normalized_variants ∧
      c3ClaimedVariants (some ("-".toList)) none = [] := by
  decide

/-- **C3** (amended): for every record, `normalized_variants` is exactly
the set of `normalize(n)` for `n` over the canonical name and the parsed
alternates, with NO exclusion of empty strings; it contains the
normalized canonical name and the normalized form of every alternate and
is never the empty collection.  Every entity produced by a successful
`build_entity_mapping` run has this shape. -/
theorem c3_normalized_variants :
    (∀ canonical altVal : Option Str,
      (∀ v, v ∈ (mkEntity canonical altVal).normalized_variants ↔
          v = normalizeOpt canonical ∨ ∃ a ∈ parseAlts altVal, normalizeStr a = v) ∧
      normalizeOpt canonical ∈ (mkEntity canonical altVal).normalized_variants ∧
      (∀ a ∈ parseAlts altVal,
        normalizeStr a ∈ (mkEntity canonical altVal).normalized_variants) ∧
      (mkEntity canonical altVal).normalized_variants ≠ []) ∧
    (∀ (df : PyDF) (idCol nameCol : Str) (altCol : Option Str) m,
      build_entity_mapping df idCol nameCol altCol = Except.ok m →
      ∀ p ∈ m, ∃ nv av, p.2 = mkEntity nv av) := by
  constructor
  · intro canonical altVal
    have hmem : ∀ v, v ∈ (mkEntity canonical altVal).normalized_variants ↔
        v = normalizeOpt canonical ∨ ∃ a ∈ parseAlts altVal, normalizeStr a = v := by
      intro v
      simp [mkEntity, List.mem_dedup]
    refine ⟨hmem, ?_, ?_, ?_⟩
    · exact (hmem _).mpr (Or.inl rfl)
    · intro a ha
      exact (hmem _).mpr (Or.inr ⟨a, ha, rfl⟩)
    · exact List.ne_nil_of_mem ((hmem _).mpr (Or.inl rfl))
  · intro df idCol nameCol altCol m h
    exact foldlM_buildStep_shape df idCol nameCol altCol df.rows [] m h (by simp)

/-- **C3** witness: a concrete record with one alternate name, on which
the amended variant-set description holds. -/
theorem c3_witness :
    normalizeStr ("Verde Nova".toList) ∈
      (mkEntity (some ("VerdeNova Solutions".toList))
        (some ("Verde Nova".toList))).normalized_variants :=
  (c3_normalized_variants.1 (some ("VerdeNova Solutions".toList))
    (some ("Verde Nova".toList))).2.2.1 ("Verde Nova".toList) (by decide)

/-- **C8** (counterexample): a record with a null identifier is neither
dropped with a warning nor does its presence as the only record raise
`EmptyEntitySetError`; the builder returns it keyed by the null id. -/
theorem c8_counterexample_no_drop_no_fatal :
    build_entity_mapping
        ⟨["id".toList, "name".toList],
         [[("id".toList, none), ("name".toList, some ("x".toList))]]⟩
        ("id".toList) ("name".toList) none
      = Except.ok [(none, mkEntity (some ("x".toList)) none)] := by
  rfl

/-- **C8** (amended): the builder has no bespoke error handling.  When the
id column is absent from the first record it fails with Python's
`KeyError` (there is no `MissingFieldError`); a record with a null
identifier is kept, keyed by the null id, and an input whose only record
has no valid identifier still succeeds (there is no `EmptyEntitySetError`). -/
theorem c8_builder_error_behavior :
    (∀ (df : PyDF) (idCol nameCol : Str) (altCol : Option Str) (row : Row)
        (rest : List Row),
      df.rows = row :: rest → List.lookup idCol row = none →
      build_entity_mapping df idCol nameCol altCol =
        Except.error (PyErr.keyError idCol)) ∧
    (∀ (df : PyDF) (idCol nameCol : Str) (altCol : Option Str) (row : Row)
        (nv : Option Str),
      df.rows = [row] → List.lookup idCol row = some none →
      List.lookup nameCol row = some nv →
      build_entity_mapping df idCol nameCol altCol =
        Except.ok [(none, mkEntity nv (altValOf df altCol row))]) := by
  constructor
  · intro df idCol nameCol altCol row rest hrows hlook
    unfold build_entity_mapping
    rw [hrows, List.foldlM_cons]
    have hstep : buildStep df idCol nameCol altCol [] row =
        Except.error (PyErr.keyError idCol) := by
      unfold buildStep getCell
      rw [hlook]
      rfl
    rw [hstep]
    rfl
  · intro df idCol nameCol altCol row nv hrows hid hname
    unfold build_entity_mapping
    rw [hrows, List.foldlM_cons]
    have hstep : buildStep df idCol nameCol altCol [] row =
        Except.ok [(none, mkEntity nv (altValOf df altCol row))] := by
      unfold buildStep getCell
      rw [hid, hname]
      rfl
    rw [hstep]
    rfl

/-- **C8** witness: both amended behaviors at concrete inputs. -/
theorem c8_witness :
    build_entity_mapping ⟨["name".toList], [[("name".toList, some ("x".toList))]]⟩
        ("id".toList) ("name".toList) none
      = Except.error (PyErr.keyError ("id".toList)) ∧
    build_entity_mapping
        ⟨["id".toList, "name".toList],
         [[("id".toList, none), ("name".toList, some ("y".toList))]]⟩
        ("id".toList) ("name".toList) none
      = Except.ok [(none, mkEntity (some ("y".toList)) none)] := by
  constructor
  · exact c8_builder_error_behavior.1 _ ("id".toList) ("name".toList) none _ []
      rfl (by decide)
  · have := c8_builder_error_behavior.2
      ⟨["id".toList, "name".toList],
       [[("id".toList, none), ("name".toList, some ("y".toList))]]⟩
      ("id".toList) ("name".toList) none
      [("id".toList, none), ("name".toList, some ("y".toList))]
      (some ("y".toList)) rfl (by decide) (by decide)
    simpa using this

/-! ## Claims C4 and C10: the reverse lookup -/

/-- Whether `create_reverse_lookup` writes key `v` while processing
entity `e`: the normalized canonical name is inserted unconditionally,
a variant only when non-empty. -/
def entityInsertsKey (v : Str) (e : Entity) : Bool :=
  decide (v = normalizeOpt e.canonical_name ∨ (v ∈ e.normalized_variants ∧ v ≠ []))

/-- The id of the last entity (in map order) that writes key `v`. -/
def lastIdFor {ι : Type} (v : Str) : List (ι × Entity) → Option ι
  | [] => none
  | p :: em =>
    match lastIdFor v em with
    | some j => some j
    | none => if entityInsertsKey v p.2 then some p.1 else none

theorem foldl_variants_lookup {ι : Type} (i : ι) (v : Str) :
    ∀ (vs : List Str) (m : Str → Option ι),
      (vs.foldl (fun m2 w => if w ≠ [] then updFn m2 w i else m2) m) v =
        if v ∈ vs ∧ v ≠ [] then some i else m v := by
  intro vs
  induction vs with
  | nil => intro m; simp
  | cons w vs' ih =>
    intro m
    rw [List.foldl_cons, ih]
    by_cases h2 : v = w
    · subst h2
      by_cases h3 : v = []
      · subst h3; simp
      · simp [updFn, h3]
    · have hiff : (v ∈ w :: vs' ∧ v ≠ []) ↔ (v ∈ vs' ∧ v ≠ []) := by
        constructor
        · rintro ⟨hm, hne⟩
          exact ⟨(List.mem_cons.mp hm).resolve_left h2, hne⟩
        · rintro ⟨hm, hne⟩
          exact ⟨List.mem_cons_of_mem w hm, hne⟩
      by_cases h1 : v ∈ vs' ∧ v ≠ []
      · rw [if_pos h1, if_pos (hiff.mpr h1)]
      · rw [if_neg h1, if_neg (fun hh => h1 (hiff.mp hh))]
        by_cases h4 : w = []
        · rw [if_neg (fun hne => hne h4)]
        · rw [if_pos h4]
          simp [updFn, h2]

theorem revStep_lookup {ι : Type} (m : Str → Option ι) (p : ι × Entity) (v : Str) :
    revStep m p v = if entityInsertsKey v p.2 then some p.1 else m v := by
  unfold revStep
  rw [foldl_variants_lookup]
  unfold entityInsertsKey
  by_cases h1 : v ∈ p.2.normalized_variants ∧ v ≠ []
  · rw [if_pos h1, if_pos (by simp [h1])]
  · rw [if_neg h1]
    by_cases h2 : v = normalizeOpt p.2.canonical_name
    · rw [if_pos (by simp [h2])]
      simp [updFn, h2]
    · rw [if_neg (by simp [h1, h2])]
      simp [updFn, h2]

theorem revFold_lookup {ι : Type} (v : Str) :
    ∀ (em : List (ι × Entity)) (m : Str → Option ι),
      (em.foldl revStep m) v =
        match lastIdFor v em with
        | some j => some j
        | none => m v := by
  intro em
  induction em with
  | nil => intro m; rfl
  | cons p em' ih =>
    intro m
    rw [List.foldl_cons, ih]
    cases hl : lastIdFor v em' with
    | some j => simp [lastIdFor, hl]
    | none =>
      simp only [lastIdFor, hl, revStep_lookup]
      by_cases h : entityInsertsKey v p.2 = true
      · simp [h]
      · simp [h]

theorem create_reverse_lookup_eq_lastIdFor {ι : Type}
    (em : List (ι × Entity)) (v : Str) :
    create_reverse_lookup em v = lastIdFor v em := by
  unfold create_reverse_lookup
  rw [revFold_lookup]
  cases lastIdFor v em <;> rfl

theorem lastIdFor_eq_none {ι : Type} (v : Str) :
    ∀ em : List (ι × Entity), (∀ q ∈ em, entityInsertsKey v q.2 = false) →
      lastIdFor v em = none := by
  intro em
  induction em with
  | nil => intro _; rfl
  | cons p em' ih =>
    intro h
    simp only [lastIdFor, ih (fun q hq => h q (List.mem_cons_of_mem p hq))]
    rw [if_neg (by simp [h p (List.mem_cons_self p em')])]

theorem lastIdFor_append {ι : Type} (v : Str) :
    ∀ xs ys : List (ι × Entity),
      lastIdFor v (xs ++ ys) =
        match lastIdFor v ys with
        | some j => some j
        | none => lastIdFor v xs := by
  intro xs ys
  induction xs with
  | nil => simp; cases lastIdFor v ys <;> rfl
  | cons p xs' ih =>
    rw [List.cons_append]
    simp only [lastIdFor, ih]
    cases lastIdFor v ys <;> cases lastIdFor v xs' <;> rfl

/-- **C4** (counterexample): an empty-string variant is not inserted as a
key.  The entity built from name `"x"` with alternate `"-"` has
`"" ∈ normalized_variants`, yet the reverse lookup (with no later
entity) does not contain `""`. -/
theorem c4_counterexample_empty_variant_skipped :
    [] ∈ (mkEntity (some ("x".toList)) (some ("-".toList))).normalized_variants ∧
      create_reverse_lookup
        [(("D1".toList : Str), mkEntity (some ("x".toList)) (some ("-".toList)))]
        [] = none := by
  constructor
  · decide
  · rfl

/-- **C4** (amended): for every entity `e` in the source map and every
NON-EMPTY variant `v` of `e`, the reverse lookup contains `v` and maps it
to the id of the last entity (in map order) that writes `v` — `e` itself
unless a later-processed entity also has `v` among its non-empty variants
or as its normalized canonical name, in which case the later entity's id
wins.  Empty-string variants are excluded: they are never written. -/
theorem c4_reverse_lookup_nonempty_variants {ι : Type}
    (em pre post : List (ι × Entity)) (i : ι) (e : Entity) (v : Str)
    (hsplit : em = pre ++ (i, e) :: post)
    (hv : v ∈ e.normalized_variants) (hvne : v ≠ []) :
    (∃ j, create_reverse_lookup em v = some j) ∧
    ((∀ q ∈ post, v ∉ q.2.normalized_variants ∧
        normalizeOpt q.2.canonical_name ≠ v) →
      create_reverse_lookup em v = some i) ∧
    create_reverse_lookup em v = lastIdFor v em := by
  subst hsplit
  have hins : entityInsertsKey v e = true := by
    simp [entityInsertsKey, hv, hvne]
  refine ⟨?_, ?_, create_reverse_lookup_eq_lastIdFor _ v⟩
  · rw [create_reverse_lookup_eq_lastIdFor, lastIdFor_append]
    cases hp : lastIdFor v ((i, e) :: post) with
    | some j => exact ⟨j, rfl⟩
    | none =>
      exfalso
      simp only [lastIdFor] at hp
      cases hq : lastIdFor v post with
      | some j => rw [hq] at hp; exact Option.noConfusion hp
      | none => rw [hq, if_pos hins] at hp; exact Option.noConfusion hp
  · intro hpost
    rw [create_reverse_lookup_eq_lastIdFor, lastIdFor_append]
    have hq : lastIdFor v post = none := by
      apply lastIdFor_eq_none
      intro q hq
      simp only [entityInsertsKey, decide_eq_false_iff_not]
      rintro (hc | ⟨hm, -⟩)
      · exact (hpost q hq).2 hc.symm
      · exact (hpost q hq).1 hm
    simp only [lastIdFor, hq, if_pos hins]

/-- **C4** witness: a two-entity map sharing the variant `"x"`; the later
entity overwrites, and the first conjunct still yields a hit. -/
theorem c4_witness :
    (∃ j, create_reverse_lookup
      [(("D1".toList : Str), mkEntity (some ("x".toList)) none),
       (("D2".toList : Str), mkEntity (some ("x".toList)) none)]
      ("x".toList) = some j) ∧
    create_reverse_lookup
      [(("D1".toList : Str), mkEntity (some ("x".toList)) none),
       (("D2".toList : Str), mkEntity (some ("x".toList)) none)]
      ("x".toList) = some ("D2".toList) := by
  constructor
  · exact (c4_reverse_lookup_nonempty_variants _ []
      [(("D2".toList : Str), mkEntity (some ("x".toList)) none)]
      ("D1".toList) (mkEntity (some ("x".toList)) none) ("x".toList)
      rfl (by decide) (by decide)).1
  · rfl

/-- **C10**: the normalized canonical name is inserted unconditionally —
when no entity's canonical name normalizes to `""`, the empty string is
not a key (empty variants are skipped even when present); when some
entity's canonical name normalizes to `""`, the empty-string key maps to
the id of the last such entity. -/
theorem c10_empty_key_from_canonical_only {ι : Type} :
    (∀ em : List (ι × Entity),
      (∀ q ∈ em, normalizeOpt q.2.canonical_name ≠ []) →
      create_reverse_lookup em [] = none) ∧
    (∀ (em pre post : List (ι × Entity)) (i : ι) (e : Entity),
      em = pre ++ (i, e) :: post →
      normalizeOpt e.canonical_name = [] →
      (∀ q ∈ post, normalizeOpt q.2.canonical_name ≠ []) →
      create_reverse_lookup em [] = some i) := by
  constructor
  · intro em h
    rw [create_reverse_lookup_eq_lastIdFor]
    apply lastIdFor_eq_none
    intro q hq
    simp only [entityInsertsKey, decide_eq_false_iff_not]
    rintro (hc | ⟨-, hne⟩)
    · exact h q hq hc.symm
    · exact hne rfl
  · intro em pre post i e hsplit hcanon hpost
    subst hsplit
    rw [create_reverse_lookup_eq_lastIdFor, lastIdFor_append]
    have hq : lastIdFor [] post = none := by
      apply lastIdFor_eq_none
      intro q hq
      simp only [entityInsertsKey, decide_eq_false_iff_not]
      rintro (hc | ⟨-, hne⟩)
      · exact hpost q hq hc.symm
      · exact hne rfl
    simp only [lastIdFor, hq]
    rw [if_pos (by simp [entityInsertsKey, hcanon])]

/-- **C10** witness: with two entities whose canonical names normalize to
`""`, the empty key maps to the later id; with none, the key is absent
even though an empty variant exists. -/
theorem c10_witness :
    create_reverse_lookup
      [(("D1".toList : Str), mkEntity (some ("-".toList)) none),
       (("D2".toList : Str), mkEntity (some (".".toList)) none)]
      [] = some ("D2".toList) ∧
    create_reverse_lookup
      [(("D3".toList : Str), mkEntity (some ("x".toList)) (some ("-".toList)))]
      [] = none := by
  constructor
  · exact c10_empty_key_from_canonical_only.2 _
      [(("D1".toList : Str), mkEntity (some ("-".toList)) none)] []
      ("D2".toList) (mkEntity (some (".".toList)) none)
      rfl (by decide) (by decide)
  · exact c10_empty_key_from_canonical_only.1
      [(("D3".toList : Str), mkEntity (some ("x".toList)) (some ("-".toList)))]
      (by decide)

/-! ## Claim C7: the mention extractor -/

/-- The list of mentions one entity contributes, in the non-raising case. -/
def pureMentions {ι : Type} (tl : Str) (p : ι × Entity) : List (MentionT ι) :=
  match p.2.canonical_name with
  | none => []
  | some cn =>
    if hasInfix tl (pyLower cn) then [⟨p.1, cn, cn⟩]
    else
      match p.2.alternate_names.find? (fun a => hasInfix tl (pyLower a)) with
      | some a => [⟨p.1, cn, a⟩]
      | none => []

theorem mentionsForEntity_eq {ι : Type} (tl : Str) (i : ι) (e : Entity) :
    mentionsForEntity tl i e =
      match e.canonical_name with
      | none => Except.error PyErr.attributeError
      | some _ => Except.ok (pureMentions tl (i, e)) := by
  cases hcn : e.canonical_name with
  | none => simp [mentionsForEntity, pureMentions, hcn]
  | some cn =>
    simp only [mentionsForEntity, pureMentions, hcn]
    split
    · rfl
    · split <;> rfl

theorem foldlM_mentionStep_char {ι : Type} (tl : Str) :
    ∀ (em : List (ι × Entity)) (acc res : List (MentionT ι)),
      em.foldlM (mentionStep tl) acc = Except.ok res →
      res = acc ++ em.flatMap (pureMentions tl) := by
  intro em
  induction em with
  | nil =>
    intro acc res h
    rw [List.foldlM_nil] at h
    injection h with h
    simp [h]
  | cons p em' ih =>
    intro acc res h
    rw [List.foldlM_cons] at h
    cases hm : mentionsForEntity tl p.1 p.2 with
    | error e =>
      rw [show mentionStep tl acc p = Except.error e by
            simp [mentionStep, hm, Bind.bind, Except.bind]] at h
      exact absurd h (by simp [Bind.bind, Except.bind])
    | ok ms =>
      have hms : ms = pureMentions tl p := by
        rw [mentionsForEntity_eq] at hm
        cases hcn : p.2.canonical_name with
        | none => rw [hcn] at hm; exact absurd hm (by simp)
        | some cn =>
          rw [hcn] at hm
          injection hm with hm
          exact hm.symm
      rw [show mentionStep tl acc p = Except.ok (acc ++ ms) by
            simp [mentionStep, hm, Bind.bind, Except.bind, pure, Except.pure]] at h
      replace h : em'.foldlM (mentionStep tl) (acc ++ ms) = Except.ok res := by
        simpa [Bind.bind, Except.bind] using h
      rw [ih (acc ++ ms) res h, hms]
      simp

theorem mem_pureMentions_id {ι : Type} (tl : Str) (p : ι × Entity)
    (mt : MentionT ι) : mt ∈ pureMentions tl p → mt.entity_id = p.1 := by
  intro hmt
  unfold pureMentions at hmt
  split at hmt
  · simp at hmt
  · split at hmt
    · rw [List.mem_singleton.mp hmt]
    · split at hmt
      · rw [List.mem_singleton.mp hmt]
      · simp at hmt

theorem pureMentions_length_le {ι : Type} (tl : Str) (p : ι × Entity) :
    (pureMentions tl p).length ≤ 1 := by
  unfold pureMentions
  split
  · simp
  · split
    · simp
    · split <;> simp

theorem countP_flatMap_pureMentions_zero {ι : Type} [DecidableEq ι]
    (tl : Str) (i : ι) :
    ∀ em : List (ι × Entity), i ∉ em.map Prod.fst →
      (em.flatMap (pureMentions tl)).countP (fun mt => mt.entity_id == i) = 0 := by
  intro em hnem
  rw [List.countP_eq_zero]
  intro mt hmt
  rcases List.mem_flatMap.mp hmt with ⟨p, hp, hmtp⟩
  have hid := mem_pureMentions_id tl p mt hmtp
  simp only [beq_iff_eq, hid]
  intro hpi
  exact hnem (List.mem_map.mpr ⟨p, hp, hpi ▸ rfl⟩)

theorem countP_flatMap_pureMentions_le_one {ι : Type} [DecidableEq ι]
    (tl : Str) (i : ι) :
    ∀ em : List (ι × Entity), (em.map Prod.fst).Nodup →
      (em.flatMap (pureMentions tl)).countP (fun mt => mt.entity_id == i) ≤ 1 := by
  intro em
  induction em with
  | nil => intro _; simp
  | cons p em' ih =>
    intro hnd
    rw [List.flatMap_cons, List.countP_append]
    rw [List.map_cons] at hnd
    have hnd' := List.nodup_cons.mp hnd
    by_cases hpi : p.1 = i
    · have h0 : (em'.flatMap (pureMentions tl)).countP
          (fun mt => mt.entity_id == i) = 0 :=
        countP_flatMap_pureMentions_zero tl i em' (hpi ▸ hnd'.1)
      have h1 : (pureMentions tl p).countP (fun mt => mt.entity_id == i) ≤ 1 :=
        le_trans (List.countP_le_length _) (pureMentions_length_le tl p)
      omega
    · have h0 : (pureMentions tl p).countP (fun mt => mt.entity_id == i) = 0 := by
        rw [List.countP_eq_zero]
        intro mt hmt
        simp [mem_pureMentions_id tl p mt hmt, hpi]
      have h1 := ih hnd'.2
      omega

/-- **C7**: for every text and entity map, the mention extractor emits at
most one mention per entity; the canonical name is tested first and on a
case-insensitive substring hit one mention with the canonical name as
`matched_text` is emitted, skipping the alternates; otherwise the first
matching alternate (in order) is emitted; a null text yields `[]`, not an
error. -/
theorem c7_mention_extractor {ι : Type} [DecidableEq ι] :
    (∀ em : List (ι × Entity), find_entity_in_text none em = Except.ok []) ∧
    (∀ (t : Str) (em : List (ι × Entity)) (res : List (MentionT ι)),
      find_entity_in_text (some t) em = Except.ok res →
      ((em.map Prod.fst).Nodup →
        ∀ i : ι, res.countP (fun mt => mt.entity_id == i) ≤ 1) ∧
      (∀ (i : ι) (e : Entity) (cn : Str), (i, e) ∈ em →
        e.canonical_name = some cn →
        hasInfix (pyLower t) (pyLower cn) = true →
        (⟨i, cn, cn⟩ : MentionT ι) ∈ res) ∧
      (∀ (i : ι) (e : Entity) (cn a : Str), (i, e) ∈ em →
        e.canonical_name = some cn →
        hasInfix (pyLower t) (pyLower cn) = false →
        e.alternate_names.find? (fun a2 => hasInfix (pyLower t) (pyLower a2)) =
          some a →
        (⟨i, cn, a⟩ : MentionT ι) ∈ res)) := by
  constructor
  · intro em; rfl
  · intro t em res h
    have hres : res = em.flatMap (pureMentions (pyLower t)) := by
      simpa using foldlM_mentionStep_char (pyLower t) em [] res h
    subst hres
    refine ⟨?_, ?_, ?_⟩
    · intro hnd i
      exact countP_flatMap_pureMentions_le_one (pyLower t) i em hnd
    · intro i e cn hmem hcn hinf
      refine List.mem_flatMap.mpr ⟨(i, e), hmem, ?_⟩
      simp [pureMentions, hcn, hinf]
    · intro i e cn a hmem hcn hinf hfind
      refine List.mem_flatMap.mpr ⟨(i, e), hmem, ?_⟩
      simp [pureMentions, hcn, hinf, hfind]

/-- **C7** witness: the spec's own example — text
`"Contact VerdeNova Solutions about ARR"` and an entity whose canonical
name is `"VerdeNova Solutions"` produce exactly one mention whose
`matched_text` is the canonical name. -/
theorem c7_witness :
    (⟨"D1".toList, "VerdeNova Solutions".toList, "VerdeNova Solutions".toList⟩ :
        MentionT Str) ∈
      [(⟨"D1".toList, "VerdeNova Solutions".toList,
          "VerdeNova Solutions".toList⟩ : MentionT Str)] :=
  ((c7_mention_extractor.2 ("Contact VerdeNova Solutions about ARR".toList)
      [("D1".toList,
        { canonical_name := some ("VerdeNova Solutions".toList)
          alternate_names := []
          normalized_variants := ["verdenova".toList] })]
      [⟨"D1".toList, "VerdeNova Solutions".toList, "VerdeNova Solutions".toList⟩]
      (by rfl)).2.1
    ("D1".toList) _ ("VerdeNova Solutions".toList)
    (List.mem_singleton.mpr rfl) rfl (by decide))

/-! ## Claim C9: duplicate detection is monotone in the threshold -/

theorem filterMap_sublist_of_imp {α β : Type} (f g : α → Option β)
    (h : ∀ a b, f a = some b → g a = some b) :
    ∀ l : List α, (l.filterMap f).Sublist (l.filterMap g) := by
  intro l
  induction l with
  | nil => simp
  | cons a l ih =>
    rw [List.filterMap_cons, List.filterMap_cons]
    cases hfa : f a with
    | none =>
      cases g a with
      | none => exact ih
      | some b => exact ih.trans (List.sublist_cons_self b _)
    | some b =>
      rw [h a b hfa]
      exact ih.cons₂ b

theorem mem_find_similar_iff {ι : Type} (ratio : Str → Str → ℚ)
    (em : List (ι × Entity)) (t : ℚ) (d : DupCand ι) :
    d ∈ find_similar_entities ratio em t ↔
      ∃ pq ∈ entryPairs em, (maxSim ratio pq.1.2 pq.2.2).1 ≥ t ∧
        d = ⟨pq.1.1, pq.1.2.canonical_name, pq.2.1, pq.2.2.canonical_name,
             (maxSim ratio pq.1.2 pq.2.2).1, (maxSim ratio pq.1.2 pq.2.2).2⟩ := by
  unfold find_similar_entities
  rw [List.mem_filterMap]
  constructor
  · rintro ⟨pq, hpq, hf⟩
    by_cases h : (maxSim ratio pq.1.2 pq.2.2).1 ≥ t
    · rw [if_pos h] at hf
      injection hf with hf
      exact ⟨pq, hpq, h, hf.symm⟩
    · rw [if_neg h] at hf
      exact absurd hf (by simp)
  · rintro ⟨pq, hpq, h, rfl⟩
    exact ⟨pq, hpq, by rw [if_pos h]⟩

/-- **C9**: duplicate detection is monotone in the threshold — at a higher
threshold the reported list is a sub-collection of the lower-threshold
one (so its size never increases), because a pair is reported exactly
when its maximum variant-pair similarity reaches the threshold. -/
theorem c9_threshold_monotone {ι : Type} (ratio : Str → Str → ℚ)
    (em : List (ι × Entity)) (t1 t2 : ℚ) (h : t1 ≤ t2) :
    find_similar_entities ratio em t2 ⊆ find_similar_entities ratio em t1 ∧
    (find_similar_entities ratio em t2).length ≤
      (find_similar_entities ratio em t1).length ∧
    (∀ (t : ℚ) (d : DupCand ι), d ∈ find_similar_entities ratio em t ↔
      ∃ pq ∈ entryPairs em, (maxSim ratio pq.1.2 pq.2.2).1 ≥ t ∧
        d = ⟨pq.1.1, pq.1.2.canonical_name, pq.2.1, pq.2.2.canonical_name,
             (maxSim ratio pq.1.2 pq.2.2).1, (maxSim ratio pq.1.2 pq.2.2).2⟩) := by
  have hsub : (find_similar_entities ratio em t2).Sublist
      (find_similar_entities ratio em t1) := by
    apply filterMap_sublist_of_imp
    intro pq d hf
    by_cases hge : (maxSim ratio pq.1.2 pq.2.2).1 ≥ t2
    · rw [if_pos hge] at hf
      rw [if_pos (le_trans h hge)]
      exact hf
    · rw [if_neg hge] at hf
      exact absurd hf (by simp)
  exact ⟨hsub.subset, hsub.length_le, mem_find_similar_iff ratio em⟩

/-- **C9** witness: two entities sharing the variant `"x"` under an exact
match ratio score 100; the candidate reported at threshold 85 is also
reported at threshold 80. -/
theorem c9_witness :
    (⟨"D1".toList, some ("x".toList), "D2".toList, some ("x".toList), 100,
        some ("x".toList, "x".toList)⟩ : DupCand Str) ∈
      find_similar_entities (fun a b => if a == b then (100 : ℚ) else 0)
        [("D1".toList, mkEntity (some ("x".toList)) none),
         ("D2".toList, mkEntity (some ("x".toList)) none)] 80 :=
  (c9_threshold_monotone (fun a b => if a == b then (100 : ℚ) else 0)
      [("D1".toList, mkEntity (some ("x".toList)) none),
       ("D2".toList, mkEntity (some ("x".toList)) none)]
      80 85 (by norm_num)).1
    (by decide)

/-! ## Claims C5 and C6: the relationship aggregator -/

theorem mem_dedupGo :
    ∀ (l : List Edge) (seen : List (Option Str × Option Str × Str)) (e : Edge),
      e ∈ dedupGo seen l → e ∈ l ∧ edgeKey e ∉ seen := by
  intro l
  induction l with
  | nil => intro seen e he; simp [dedupGo] at he
  | cons x xs ih =>
    intro seen e he
    by_cases hk : edgeKey x ∈ seen
    · rw [dedupGo, if_pos hk] at he
      have := ih seen e he
      exact ⟨List.mem_cons_of_mem x this.1, this.2⟩
    · rw [dedupGo, if_neg hk] at he
      rcases List.mem_cons.mp he with he | he
      · subst he
        exact ⟨List.mem_cons_self e xs, hk⟩
      · have := ih (edgeKey x :: seen) e he
        refine ⟨List.mem_cons_of_mem x this.1, fun hmem => this.2 ?_⟩
        exact List.mem_cons_of_mem _ hmem

theorem dedupGo_keys_nodup :
    ∀ (l : List Edge) (seen : List (Option Str × Option Str × Str)),
      ((dedupGo seen l).map edgeKey).Nodup := by
  intro l
  induction l with
  | nil => intro seen; simp [dedupGo]
  | cons x xs ih =>
    intro seen
    by_cases hk : edgeKey x ∈ seen
    · rw [dedupGo, if_pos hk]
      exact ih seen
    · rw [dedupGo, if_neg hk]
      rw [List.map_cons, List.nodup_cons]
      refine ⟨?_, ih (edgeKey x :: seen)⟩
      intro hmem
      rcases List.mem_map.mp hmem with ⟨e, he, hkey⟩
      exact (mem_dedupGo xs (edgeKey x :: seen) e he).2
        (hkey ▸ List.mem_cons_self _ _)

theorem dedupGo_find_first :
    ∀ (l : List Edge) (seen : List (Option Str × Option Str × Str)) (e : Edge),
      e ∈ dedupGo seen l →
      l.find? (fun x => edgeKey x == edgeKey e) = some e := by
  intro l
  induction l with
  | nil => intro seen e he; simp [dedupGo] at he
  | cons x xs ih =>
    intro seen e he
    by_cases hk : edgeKey x ∈ seen
    · rw [dedupGo, if_pos hk] at he
      have hne : edgeKey x ≠ edgeKey e := by
        intro heq
        exact (mem_dedupGo xs seen e he).2 (heq ▸ hk)
      rw [List.find?_cons_of_neg _ (by simpa using hne)]
      exact ih seen e he
    · rw [dedupGo, if_neg hk] at he
      rcases List.mem_cons.mp he with he | he
      · subst he
        rw [List.find?_cons_of_pos _ (by simp)]
      · have hne : edgeKey x ≠ edgeKey e := by
          intro heq
          exact (mem_dedupGo xs (edgeKey x :: seen) e he).2
            (heq ▸ List.mem_cons_self _ _)
        rw [List.find?_cons_of_neg _ (by simpa using hne)]
        exact ih (edgeKey x :: seen) e he

theorem dedupGo_covers :
    ∀ (l : List Edge) (seen : List (Option Str × Option Str × Str)) (x : Edge),
      x ∈ l → edgeKey x ∈ seen ∨ ∃ e ∈ dedupGo seen l, edgeKey e = edgeKey x := by
  intro l
  induction l with
  | nil => intro seen x hx; simp at hx
  | cons y ys ih =>
    intro seen x hx
    by_cases hk : edgeKey y ∈ seen
    · rw [dedupGo, if_pos hk]
      rcases List.mem_cons.mp hx with hx | hx
      · exact Or.inl (hx ▸ hk)
      · exact ih seen x hx
    · rw [dedupGo, if_neg hk]
      rcases List.mem_cons.mp hx with hx | hx
      · exact Or.inr ⟨y, List.mem_cons_self y _, by rw [hx]⟩
      · rcases ih (edgeKey y :: seen) x hx with hs | ⟨e, he, hke⟩
        · rcases List.mem_cons.mp hs with hs | hs
          · exact Or.inr ⟨y, List.mem_cons_self y _, hs.symm⟩
          · exact Or.inl hs
        · exact Or.inr ⟨e, List.mem_cons_of_mem y he, hke⟩

/-- **C5**: the relationships table carries at most one edge per
`(entity_1, entity_2, relationship_type)` triple; each kept edge is the
first edge with its triple in generation order (all email edges, then
all transcript edges, then all investor-note edges, input order within
each); and every generated triple is represented. -/
theorem c5_relationship_dedup (emailMs transcriptMs : List DocMentions)
    (devs : List DeveloperRow) (invs : List InvestorRow) :
    ((create_relationships_table emailMs transcriptMs devs invs).map edgeKey).Nodup ∧
    (∀ e ∈ create_relationships_table emailMs transcriptMs devs invs,
      (mentionedTogetherEdges ("email".toList) emailMs ++
        mentionedTogetherEdges ("transcript".toList) transcriptMs ++
        notesEdges devs invs).find? (fun x => edgeKey x == edgeKey e) = some e) ∧
    (∀ x ∈ mentionedTogetherEdges ("email".toList) emailMs ++
        mentionedTogetherEdges ("transcript".toList) transcriptMs ++
        notesEdges devs invs,
      ∃ e ∈ create_relationships_table emailMs transcriptMs devs invs,
        edgeKey e = edgeKey x) := by
  refine ⟨dedupGo_keys_nodup _ [], ?_, ?_⟩
  · intro e he
    exact dedupGo_find_first _ [] e he
  · intro x hx
    rcases dedupGo_covers _ [] x hx with hs | hs
    · simp at hs
    · exact hs

/-- **C5** witness: the same developer/investor pair mentioned in an email
and in a transcript generates two edges with the same triple; the table
keeps exactly the email one (first in generation order). -/
theorem c5_witness :
    (⟨some ("D1".toList), some ("VN".toList), some ("I1".toList),
        some ("NS".toList), "mentioned_together".toList, "email".toList,
        some ("E001".toList)⟩ : Edge) ∈
      create_relationships_table
        [⟨some ("E001".toList), [⟨some ("D1".toList), some ("VN".toList)⟩],
          [⟨some ("I1".toList), some ("NS".toList)⟩]⟩]
        [⟨some ("T001".toList), [⟨some ("D1".toList), some ("VN".toList)⟩],
          [⟨some ("I1".toList), some ("NS".toList)⟩]⟩]
        [] [] ∧
    (mentionedTogetherEdges ("email".toList)
        [⟨some ("E001".toList), [⟨some ("D1".toList), some ("VN".toList)⟩],
          [⟨some ("I1".toList), some ("NS".toList)⟩]⟩] ++
      mentionedTogetherEdges ("transcript".toList)
        [⟨some ("T001".toList), [⟨some ("D1".toList), some ("VN".toList)⟩],
          [⟨some ("I1".toList), some ("NS".toList)⟩]⟩] ++
      notesEdges [] []).find?
        (fun x => edgeKey x ==
          edgeKey (⟨some ("D1".toList), some ("VN".toList), some ("I1".toList),
            some ("NS".toList), "mentioned_together".toList, "email".toList,
            some ("E001".toList)⟩ : Edge)) =
      some (⟨some ("D1".toList), some ("VN".toList), some ("I1".toList),
        some ("NS".toList), "mentioned_together".toList, "email".toList,
        some ("E001".toList)⟩ : Edge) := by
  constructor
  · decide
  · exact (c5_relationship_dedup
      [⟨some ("E001".toList), [⟨some ("D1".toList), some ("VN".toList)⟩],
        [⟨some ("I1".toList), some ("NS".toList)⟩]⟩]
      [⟨some ("T001".toList), [⟨some ("D1".toList), some ("VN".toList)⟩],
        [⟨some ("I1".toList), some ("NS".toList)⟩]⟩]
      [] []).2.1 _ (by decide)

/-- Soundness of the project-id scanner: every match is `P` followed by
three digits and occurs in the scanned text. -/
theorem findPIds_sound :
    ∀ (t m : Str), m ∈ findPIds t →
      (∃ a b c, m = ['P', a, b, c] ∧ a.isDigit ∧ b.isDigit ∧ c.isDigit) ∧
        m <:+: t := by
  intro t
  induction t using findPIds.induct with
  | case1 a b d t hd ih =>
    intro m hm
    rw [findPIds, if_pos hd] at hm
    rcases List.mem_cons.mp hm with hm | hm
    · subst hm
      refine ⟨⟨a, b, d, rfl, ?_, ?_, ?_⟩, ⟨[], t, rfl⟩⟩ <;>
        simpa using (by simp_all : a.isDigit ∧ b.isDigit ∧ d.isDigit).elim
          (fun _ _ => by simp_all)
    · have := ih m hm
      refine ⟨this.1, ?_⟩
      rcases this.2 with ⟨pre, post, hpp⟩
      exact ⟨'P' :: a :: b :: d :: pre, post, by simp [hpp]⟩
  | case2 a b d t hd ih =>
    intro m hm
    rw [findPIds, if_neg hd] at hm
    have := ih m hm
    exact ⟨this.1, List.infix_cons this.2⟩
  | case3 c t hne ih =>
    intro m hm
    have hm' : m ∈ findPIds t := by
      rw [findPIds] at hm
      · exact hm
      · exact hne
    have := ih m hm'
    exact ⟨this.1, List.infix_cons this.2⟩
  | case4 => intro m hm; simp [findPIds] at hm

/-- Completeness of the project-id scanner: every occurrence of `P`
followed by three digits in the text is found.  (A later occurrence can
never start inside a consumed match, because `P` is not a digit.) -/
theorem findPIds_complete :
    ∀ (t : Str) (a b c : Char), a.isDigit → b.isDigit → c.isDigit →
      ['P', a, b, c] <:+: t → ['P', a, b, c] ∈ findPIds t := by
  intro t
  induction t using findPIds.induct with
  | case1 a' b' d' t' hd ih =>
    intro a b c ha hb hc hinf
    rw [findPIds, if_pos hd]
    rcases List.infix_cons_iff.mp hinf with hpre | hinf'
    · rcases List.cons_prefix_cons.mp hpre with ⟨-, h1⟩
      rcases List.cons_prefix_cons.mp h1 with ⟨ha', h2⟩
      rcases List.cons_prefix_cons.mp h2 with ⟨hb', h3⟩
      rcases List.cons_prefix_cons.mp h3 with ⟨hc', -⟩
      subst ha'
      subst hb'
      subst hc'
      exact List.mem_cons_self _ _
    · have hdig : a'.isDigit ∧ b'.isDigit ∧ d'.isDigit := by simp_all
      rcases List.infix_cons_iff.mp hinf' with hpre | hinf''
      · rcases List.cons_prefix_cons.mp hpre with ⟨hPa, -⟩
        rw [← hPa] at hdig
        exact absurd hdig.1 (by decide)
      rcases List.infix_cons_iff.mp hinf'' with hpre | hinf3
      · rcases List.cons_prefix_cons.mp hpre with ⟨hPb, -⟩
        rw [← hPb] at hdig
        exact absurd hdig.2.1 (by decide)
      rcases List.infix_cons_iff.mp hinf3 with hpre | hinf4
      · rcases List.cons_prefix_cons.mp hpre with ⟨hPd, -⟩
        rw [← hPd] at hdig
        exact absurd hdig.2.2 (by decide)
      exact List.mem_cons_of_mem _ (ih a b c ha hb hc hinf4)
  | case2 a' b' d' t' hd ih =>
    intro a b c ha hb hc hinf
    rw [findPIds, if_neg hd]
    rcases List.infix_cons_iff.mp hinf with hpre | hinf'
    · rcases List.cons_prefix_cons.mp hpre with ⟨-, h1⟩
      rcases List.cons_prefix_cons.mp h1 with ⟨ha', h2⟩
      rcases List.cons_prefix_cons.mp h2 with ⟨hb', h3⟩
      rcases List.cons_prefix_cons.mp h3 with ⟨hc', -⟩
      exact absurd (by rw [← ha', ← hb', ← hc']; simp [ha, hb, hc]) hd
    · exact ih a b c ha hb hc hinf'
  | case3 c' t' hne ih =>
    intro a b c ha hb hc hinf
    have hinf' : ['P', a, b, c] <:+: t' := by
      rcases List.infix_cons_iff.mp hinf with hpre | hinf'
      · rcases List.cons_prefix_cons.mp hpre with ⟨hPc, h1⟩
        rcases h1 with ⟨rest, hrest⟩
        exact (hne a b c rest hPc.symm (by rw [← hrest]; rfl)).elim
      · exact hinf'
    have hmem := ih a b c ha hb hc hinf'
    rw [findPIds]
    · exact hmem
    · exact hne
  | case4 =>
    intro a b c _ _ _ hinf
    have := List.sublist_nil.mp hinf.sublist
    exact absurd this (by simp)

/-- The length of a `filterMap` counts the inputs mapped to `some`. -/
theorem length_filterMap_eq {α β : Type} (g : α → Option β) :
    ∀ l : List α, (l.filterMap g).length = (l.filter (fun x => (g x).isSome)).length := by
  intro l
  induction l with
  | nil => rfl
  | cons a l ih =>
    rw [List.filterMap_cons, List.filter_cons]
    cases hg : g a with
    | none => simpa [hg] using ih
    | some b => simpa [hg] using ih

/-- **C6**: for every investor record with a non-null prior-interactions
text, the aggregator emits one `prior_interaction` edge — tagged
`source_type = investor_notes` and `source_id` = the investor's id — for
each scanner match (`P` followed by exactly three digits, and every such
occurrence in the text is matched) that resolves to a developer via the
project table; every emitted notes edge arises this way, the number of
edges per record equals the number of resolving matches, and the spec's
I2/P001/D3 scenario yields exactly the stated edge. -/
theorem c6_prior_interaction_edges :
    (∀ (devs : List DeveloperRow) (invs : List InvestorRow) (r : InvestorRow)
        (t : Str), r ∈ invs → r.prior_interactions = some t →
      ∀ m ∈ findPIds t, ∀ d : DeveloperRow,
        devs.find? (fun dr => dr.project_id == some m) = some d →
        (⟨r.investor_id, r.fund_name, d.developer_id, d.developer_name,
          "prior_interaction".toList, "investor_notes".toList,
          r.investor_id⟩ : Edge) ∈ notesEdges devs invs) ∧
    (∀ (devs : List DeveloperRow) (invs : List InvestorRow) (e : Edge),
      e ∈ notesEdges devs invs →
      ∃ r ∈ invs, ∃ t, r.prior_interactions = some t ∧
        ∃ m ∈ findPIds t, ∃ d : DeveloperRow,
          devs.find? (fun dr => dr.project_id == some m) = some d ∧
          e = ⟨r.investor_id, r.fund_name, d.developer_id, d.developer_name,
            "prior_interaction".toList, "investor_notes".toList,
            r.investor_id⟩) ∧
    (∀ (devs : List DeveloperRow) (r : InvestorRow) (t : Str),
      r.prior_interactions = some t →
      (notesEdges devs [r]).length =
        ((findPIds t).filter
          (fun m => (devs.find? (fun dr => dr.project_id == some m)).isSome)).length) ∧
    (∀ (t m : Str), m ∈ findPIds t →
      (∃ a b c, m = ['P', a, b, c] ∧ a.isDigit ∧ b.isDigit ∧ c.isDigit) ∧
        m <:+: t) ∧
    (∀ (t : Str) (a b c : Char), a.isDigit → b.isDigit → c.isDigit →
      ['P', a, b, c] <:+: t → ['P', a, b, c] ∈ findPIds t) ∧
    notesEdges
        [⟨some ("D3".toList), some ("GreenDev".toList), some ("P001".toList)⟩]
        [⟨some ("I2".toList), some ("NorthFund".toList),
          some ("Discussed P001 financing".toList)⟩] =
      [⟨some ("I2".toList), some ("NorthFund".toList), some ("D3".toList),
        some ("GreenDev".toList), "prior_interaction".toList,
        "investor_notes".toList, some ("I2".toList)⟩] := by
  refine ⟨?_, ?_, ?_, findPIds_sound, findPIds_complete, by decide⟩
  · intro devs invs r t hr ht m hm d hfind
    unfold notesEdges
    refine List.mem_flatMap.mpr ⟨r, hr, ?_⟩
    rw [ht]
    exact List.mem_filterMap.mpr ⟨m, hm, by rw [hfind]⟩
  · intro devs invs e he
    unfold notesEdges at he
    rcases List.mem_flatMap.mp he with ⟨r, hr, hre⟩
    cases hpi : r.prior_interactions with
    | none => rw [hpi] at hre; simp at hre
    | some t =>
      rw [hpi] at hre
      rcases List.mem_filterMap.mp hre with ⟨m, hm, hemit⟩
      cases hfind : List.find? (fun dr => dr.project_id == some m) devs with
      | none => rw [hfind] at hemit; simp at hemit
      | some d =>
        rw [hfind] at hemit
        injection hemit with hemit
        exact ⟨r, hr, t, hpi, m, hm, d, hfind, hemit.symm⟩
  · intro devs r t ht
    simp only [notesEdges, List.flatMap_cons, List.flatMap_nil, List.append_nil, ht]
    rw [length_filterMap_eq]
    congr 1
    apply List.filter_congr
    intro m _
    cases hfind : List.find? (fun dr => dr.project_id == some m) devs <;>
      simp [hfind]

/-- **C6** witness: the I2/P001/D3 scenario run through the general
emission conjunct — the match `"P001"` in `"Discussed P001 financing"`
resolves to developer `D3` and its edge is emitted with the stated tags. -/
theorem c6_witness :
    (⟨some ("I2".toList), some ("NorthFund".toList), some ("D3".toList),
        some ("GreenDev".toList), "prior_interaction".toList,
        "investor_notes".toList, some ("I2".toList)⟩ : Edge) ∈
      notesEdges
        [⟨some ("D3".toList), some ("GreenDev".toList), some ("P001".toList)⟩]
        [⟨some ("I2".toList), some ("NorthFund".toList),
          some ("Discussed P001 financing".toList)⟩] :=
  c6_prior_interaction_edges.1
    [⟨some ("D3".toList), some ("GreenDev".toList), some ("P001".toList)⟩]
    [⟨some ("I2".toList), some ("NorthFund".toList),
      some ("Discussed P001 financing".toList)⟩]
    ⟨some ("I2".toList), some ("NorthFund".toList),
      some ("Discussed P001 financing".toList)⟩
    ("Discussed P001 financing".toList)
    (List.mem_singleton.mpr rfl) rfl ("P001".toList) (by decide)
    ⟨some ("D3".toList), some ("GreenDev".toList), some ("P001".toList)⟩
    (by decide)

end CCarbon
